import Mathlib

/-!
Verification of the snarkVM identifier codec
(`console/program/src/data/identifier/string.rs`) and the DPC transaction
authorization module (`dpc/src/transaction/authorization.rs`) against their
natural-language specification.

Bytes are modelled as `Nat` (with explicit `< 256` bounds where they matter),
field elements as `Nat`, and fallible operations as `Option`/explicit outcome
types.  Panics (`debug_assert!`, `expect`) are modelled as distinguished
outcome constructors, separate from error returns.
-/

namespace SnarkVM

/-! ## Little-endian bit/byte utilities

These model `snarkvm_utilities` bit conversions: `ToBits for [u8]` produces the
bits of each byte in little-endian order, and `u8::from_bits_le` reads a chunk
of at most 8 little-endian bits back into a byte. -/

/-- Value of a little-endian bit sequence. -/
def natOfBitsLE : List Bool → Nat
  | [] => 0
  | b :: bs => (if b then 1 else 0) + 2 * natOfBitsLE bs

/-- The `n` low little-endian bits of a natural number. -/
def natToBitsLE : Nat → Nat → List Bool
  | 0, _ => []
  | n + 1, v => (v % 2 == 1) :: natToBitsLE n (v / 2)

/-- Little-endian bits of one byte. -/
def byteToBitsLE (b : Nat) : List Bool := natToBitsLE 8 b

/-- Little-endian bits of a byte string (per-byte little-endian, bytes in order),
modelling `ToBits::to_bits_le` on `&[u8]`. -/
def bytesToBitsLE (bs : List Nat) : List Bool := (bs.map byteToBitsLE).flatten

/-- Split a bit sequence into chunks of 8 (the last chunk may be shorter),
modelling `slice::chunks(8)`. -/
def chunksOf8 : List Bool → List (List Bool)
  | b1 :: b2 :: b3 :: b4 :: b5 :: b6 :: b7 :: b8 :: rest =>
      [b1, b2, b3, b4, b5, b6, b7, b8] :: chunksOf8 rest
  | [] => []
  | l => [l]

/-- Regroup a little-endian bit sequence into bytes, modelling
`bits.chunks(8).map(u8::from_bits_le)`. -/
def bitsToBytesLE (bits : List Bool) : List Nat := (chunksOf8 bits).map natOfBitsLE

theorem natOfBitsLE_lt (bits : List Bool) : natOfBitsLE bits < 2 ^ bits.length := by
  induction bits with
  | nil => simp [natOfBitsLE]
  | cons b bs ih =>
      simp only [natOfBitsLE, List.length_cons, pow_succ]
      cases b <;> simp <;> omega

theorem natToBitsLE_zero (n : Nat) : natToBitsLE n 0 = List.replicate n false := by
  induction n with
  | zero => rfl
  | succ n ih => simp [natToBitsLE, ih, List.replicate_succ]

theorem natToBitsLE_natOfBitsLE (bits : List Bool) (n : Nat) (h : bits.length ≤ n) :
    natToBitsLE n (natOfBitsLE bits) = bits ++ List.replicate (n - bits.length) false := by
  induction bits generalizing n with
  | nil => simp [natOfBitsLE, natToBitsLE_zero]
  | cons b bs ih =>
      match n, h with
      | n + 1, h =>
        have hlen : bs.length ≤ n := by simpa using h
        have hmod : ((if b then 1 else 0) + 2 * natOfBitsLE bs) % 2 = if b then 1 else 0 := by
          cases b <;> simp <;> omega
        have hdiv : ((if b then 1 else 0) + 2 * natOfBitsLE bs) / 2 = natOfBitsLE bs := by
          cases b <;> simp <;> omega
        simp only [natOfBitsLE, natToBitsLE, hmod, hdiv, ih n hlen]
        cases b <;> simp [List.length_cons, Nat.succ_sub_succ]

theorem natOfBitsLE_natToBitsLE (n v : Nat) (h : v < 2 ^ n) :
    natOfBitsLE (natToBitsLE n v) = v := by
  induction n generalizing v with
  | zero => simp at h; simp [natToBitsLE, natOfBitsLE, h]
  | succ n ih =>
      simp only [natToBitsLE, natOfBitsLE]
      have hv : v / 2 < 2 ^ n := by
        rw [pow_succ] at h; omega
      rw [ih (v / 2) hv]
      rcases Nat.mod_two_eq_zero_or_one v with h2 | h2 <;> simp [h2] <;> omega

theorem natToBitsLE_length (n v : Nat) : (natToBitsLE n v).length = n := by
  induction n generalizing v with
  | zero => rfl
  | succ n ih => simp [natToBitsLE, ih]

theorem byteToBitsLE_length (b : Nat) : (byteToBitsLE b).length = 8 :=
  natToBitsLE_length 8 b

theorem bytesToBitsLE_length (bs : List Nat) : (bytesToBitsLE bs).length = 8 * bs.length := by
  induction bs with
  | nil => rfl
  | cons b rest ih =>
      simp [bytesToBitsLE, byteToBitsLE_length] at *
      omega

theorem chunksOf8_byte_cons (b : Nat) (rest : List Bool) :
    chunksOf8 (byteToBitsLE b ++ rest) = byteToBitsLE b :: chunksOf8 rest := by
  show chunksOf8 (natToBitsLE 8 b ++ rest) = natToBitsLE 8 b :: chunksOf8 rest
  simp only [natToBitsLE]
  rfl

theorem bitsToBytesLE_cons (b : Nat) (rest : List Bool) (hb : b < 256) :
    bitsToBytesLE (byteToBitsLE b ++ rest) = b :: bitsToBytesLE rest := by
  simp only [bitsToBytesLE, chunksOf8_byte_cons, List.map_cons]
  rw [show natOfBitsLE (byteToBitsLE b) = b from natOfBitsLE_natToBitsLE 8 b (by norm_num; omega)]

theorem bitsToBytesLE_append (bs : List Nat) (rest : List Bool)
    (h : ∀ b ∈ bs, b < 256) :
    bitsToBytesLE (bytesToBitsLE bs ++ rest) = bs ++ bitsToBytesLE rest := by
  induction bs with
  | nil => simp [bytesToBitsLE]
  | cons b tl ih =>
      have hb : b < 256 := h b (by simp)
      have htl : ∀ x ∈ tl, x < 256 := fun x hx => h x (by simp [hx])
      simp only [bytesToBitsLE, List.map_cons, List.flatten_cons, List.append_assoc]
      rw [bitsToBytesLE_cons b _ hb,
        show ((tl.map byteToBitsLE).flatten ++ rest) = bytesToBitsLE tl ++ rest from rfl, ih htl]
      rfl

theorem chunksOf8_replicate_false (k : Nat) :
    bitsToBytesLE (List.replicate k false) = List.replicate ((k + 7) / 8) 0 := by
  induction k using Nat.strong_induction_on with
  | _ k ih =>
      match k with
      | 0 => rfl
      | 1 => decide
      | 2 => decide
      | 3 => decide
      | 4 => decide
      | 5 => decide
      | 6 => decide
      | 7 => decide
      | n + 8 =>
          have h8 : List.replicate (n + 8) false
              = byteToBitsLE 0 ++ List.replicate n false := by
            rw [show byteToBitsLE 0 = List.replicate 8 false by decide]
            rw [← List.replicate_add]
            congr 1
            omega
          rw [h8, bitsToBytesLE_cons 0 _ (by norm_num), ih n (by omega)]
          have : (n + 8 + 7) / 8 = (n + 7) / 8 + 1 := by omega
          rw [this, List.replicate_succ]

/-! ## UTF-8

Models Rust's `str::as_bytes` (UTF-8 encoding of a sequence of scalar values)
and `String::from_utf8` (strict UTF-8 validation: rejects continuation-byte
errors, overlong encodings, surrogates, and values above U+10FFFF). -/

/-- UTF-8 encoding of one Unicode scalar value. -/
def utf8EncodeChar (c : Char) : List Nat :=
  let n := c.toNat
  if n < 128 then [n]
  else if n < 2048 then [192 + n / 64, 128 + n % 64]
  else if n < 65536 then [224 + n / 4096, 128 + n / 64 % 64, 128 + n % 64]
  else [240 + n / 262144, 128 + n / 4096 % 64, 128 + n / 64 % 64, 128 + n % 64]

/-- UTF-8 byte string of a character sequence (Rust `str::as_bytes`). -/
def utf8Encode (s : List Char) : List Nat := (s.map utf8EncodeChar).flatten

/-- Byte length of a character sequence's UTF-8 form (Rust `str::len`). -/
def utf8ByteLength (s : List Char) : Nat := (utf8Encode s).length

/-- Decode one UTF-8 scalar value from the front of a byte string (strict:
rejects bad lead/continuation bytes, overlong forms, surrogates, out of range).
Returns the character and the remaining bytes. -/
def utf8DecodeOne : List Nat → Option (Char × List Nat)
  | [] => none
  | b :: rest =>
    if b < 128 then some (Char.ofNat b, rest)
    else if b < 194 then none
    else if b < 224 then
      match rest with
      | b2 :: rest2 =>
        if 128 ≤ b2 ∧ b2 < 192 then
          some (Char.ofNat ((b - 192) * 64 + (b2 - 128)), rest2)
        else none
      | [] => none
    else if b < 240 then
      match rest with
      | b2 :: b3 :: rest3 =>
        if (128 ≤ b2 ∧ b2 < 192) ∧ (128 ≤ b3 ∧ b3 < 192)
            ∧ (b = 224 → 160 ≤ b2) ∧ (b = 237 → b2 < 160) then
          some (Char.ofNat ((b - 224) * 4096 + (b2 - 128) * 64 + (b3 - 128)), rest3)
        else none
      | _ => none
    else if b < 245 then
      match rest with
      | b2 :: b3 :: b4 :: rest4 =>
        if (128 ≤ b2 ∧ b2 < 192) ∧ (128 ≤ b3 ∧ b3 < 192) ∧ (128 ≤ b4 ∧ b4 < 192)
            ∧ (b = 240 → 144 ≤ b2) ∧ (b = 244 → b2 < 144) then
          some (Char.ofNat ((b - 240) * 262144 + (b2 - 128) * 4096 + (b3 - 128) * 64 + (b4 - 128)),
            rest4)
        else none
      | _ => none
    else none

/-- Fuel-driven UTF-8 decoding loop; `utf8Decode` supplies sufficient fuel. -/
def utf8DecodeAux : Nat → List Nat → Option (List Char)
  | _, [] => some []
  | 0, _ :: _ => none
  | fuel + 1, b :: rest =>
    match utf8DecodeOne (b :: rest) with
    | some (c, rest2) =>
      match utf8DecodeAux fuel rest2 with
      | some cs => some (c :: cs)
      | none => none
    | none => none

/-- Strict UTF-8 decoding (Rust `String::from_utf8`): `none` on any invalid
sequence (bad lead/continuation byte, overlong form, surrogate, out of range). -/
def utf8Decode (l : List Nat) : Option (List Char) := utf8DecodeAux l.length l

theorem char_toNat_valid (c : Char) : c.toNat < 55296 ∨ (57344 ≤ c.toNat ∧ c.toNat < 1114112) := by
  have h := c.valid
  simp only [UInt32.isValidChar, Nat.isValidChar] at h
  exact h

theorem utf8EncodeChar_lt_256 (c : Char) : ∀ b ∈ utf8EncodeChar c, b < 256 := by
  have hv := char_toNat_valid c
  intro b hb
  simp only [utf8EncodeChar] at hb
  by_cases h1 : c.toNat < 128
  · simp [h1] at hb
    omega
  · by_cases h2 : c.toNat < 2048
    · simp [h1, h2] at hb
      rcases hb with rfl | rfl <;> omega
    · by_cases h3 : c.toNat < 65536
      · simp [h1, h2, h3] at hb
        rcases hb with rfl | rfl | rfl <;> omega
      · simp [h1, h2, h3] at hb
        rcases hb with rfl | rfl | rfl | rfl <;> omega

theorem utf8EncodeChar_length_pos (c : Char) : 0 < (utf8EncodeChar c).length := by
  simp only [utf8EncodeChar]
  by_cases h1 : c.toNat < 128 <;> by_cases h2 : c.toNat < 2048 <;>
    by_cases h3 : c.toNat < 65536 <;> simp [h1, h2, h3]

theorem utf8DecodeOne_encodeChar (c : Char) (rest : List Nat) :
    utf8DecodeOne (utf8EncodeChar c ++ rest) = some (c, rest) := by
  have hv := char_toNat_valid c
  have hofNat : Char.ofNat c.toNat = c := Char.ofNat_toNat c
  by_cases h1 : c.toNat < 128
  · simp only [utf8EncodeChar, if_pos h1, List.cons_append, List.nil_append, utf8DecodeOne]
    rw [hofNat]
  · by_cases h2 : c.toNat < 2048
    · simp only [utf8EncodeChar, if_neg h1, if_pos h2, List.cons_append, List.nil_append,
        utf8DecodeOne]
      rw [if_neg (by omega), if_neg (by omega), if_pos (by omega),
        if_pos (show 128 ≤ 128 + c.toNat % 64 ∧ 128 + c.toNat % 64 < 192 by omega)]
      have harith : (192 + c.toNat / 64 - 192) * 64 + (128 + c.toNat % 64 - 128) = c.toNat := by
        omega
      rw [harith, hofNat]
    · by_cases h3 : c.toNat < 65536
      · simp only [utf8EncodeChar, if_neg h1, if_neg h2, if_pos h3, List.cons_append,
          List.nil_append, utf8DecodeOne]
        rw [if_neg (by omega), if_neg (by omega), if_neg (by omega), if_pos (by omega)]
        have hcond : (128 ≤ 128 + c.toNat / 64 % 64 ∧ 128 + c.toNat / 64 % 64 < 192)
            ∧ (128 ≤ 128 + c.toNat % 64 ∧ 128 + c.toNat % 64 < 192)
            ∧ (224 + c.toNat / 4096 = 224 → 160 ≤ 128 + c.toNat / 64 % 64)
            ∧ (224 + c.toNat / 4096 = 237 → 128 + c.toNat / 64 % 64 < 160) := by
          refine ⟨by omega, by omega, ?_, ?_⟩ <;> intro he <;> omega
        rw [if_pos hcond]
        have harith : (224 + c.toNat / 4096 - 224) * 4096 + (128 + c.toNat / 64 % 64 - 128) * 64
            + (128 + c.toNat % 64 - 128) = c.toNat := by
          omega
        rw [harith, hofNat]
      · simp only [utf8EncodeChar, if_neg h1, if_neg h2, if_neg h3, List.cons_append,
          List.nil_append, utf8DecodeOne]
        rw [if_neg (by omega), if_neg (by omega), if_neg (by omega), if_neg (by omega),
          if_pos (by omega)]
        have hcond : (128 ≤ 128 + c.toNat / 4096 % 64 ∧ 128 + c.toNat / 4096 % 64 < 192)
            ∧ (128 ≤ 128 + c.toNat / 64 % 64 ∧ 128 + c.toNat / 64 % 64 < 192)
            ∧ (128 ≤ 128 + c.toNat % 64 ∧ 128 + c.toNat % 64 < 192)
            ∧ (240 + c.toNat / 262144 = 240 → 144 ≤ 128 + c.toNat / 4096 % 64)
            ∧ (240 + c.toNat / 262144 = 244 → 128 + c.toNat / 4096 % 64 < 144) := by
          refine ⟨by omega, by omega, by omega, ?_, ?_⟩ <;> intro he <;> omega
        rw [if_pos hcond]
        have harith : (240 + c.toNat / 262144 - 240) * 262144 + (128 + c.toNat / 4096 % 64 - 128) * 4096
            + (128 + c.toNat / 64 % 64 - 128) * 64 + (128 + c.toNat % 64 - 128) = c.toNat := by
          omega
        rw [harith, hofNat]

theorem utf8DecodeOne_length (l : List Nat) (c : Char) (rest : List Nat)
    (h : utf8DecodeOne l = some (c, rest)) : rest.length < l.length := by
  match l with
  | [] => simp [utf8DecodeOne] at h
  | b :: tl =>
    simp only [utf8DecodeOne] at h
    repeat' split at h
    all_goals simp at h
    all_goals obtain ⟨h1, h2⟩ := h
    all_goals subst h2
    all_goals simp only [List.length_cons]
    all_goals omega

theorem utf8DecodeAux_fuel (fuel fuel2 : Nat) (l : List Nat)
    (h : l.length ≤ fuel) (h2 : l.length ≤ fuel2) :
    utf8DecodeAux fuel l = utf8DecodeAux fuel2 l := by
  induction fuel using Nat.strong_induction_on generalizing l fuel2 with
  | _ fuel ih =>
    cases l with
    | nil => simp [utf8DecodeAux]
    | cons b tl =>
      cases fuel with
      | zero => simp at h
      | succ f =>
        cases fuel2 with
        | zero => simp at h2
        | succ f2 =>
          rcases hone : utf8DecodeOne (b :: tl) with _ | ⟨c, rest2⟩
          · simp only [utf8DecodeAux, hone]
          · have hlen := utf8DecodeOne_length _ _ _ hone
            simp only [List.length_cons] at h h2 hlen
            simp only [utf8DecodeAux, hone]
            rw [ih f (by omega) f2 rest2 (by omega) (by omega)]

theorem utf8Decode_cons_eq (b : Nat) (tl : List Nat) :
    utf8Decode (b :: tl) =
      match utf8DecodeOne (b :: tl) with
      | some (c, rest2) =>
        match utf8Decode rest2 with
        | some cs => some (c :: cs)
        | none => none
      | none => none := by
  show utf8DecodeAux (b :: tl).length (b :: tl) = _
  rcases hone : utf8DecodeOne (b :: tl) with _ | ⟨c, rest2⟩
  · simp only [List.length_cons, utf8DecodeAux, hone]
  · have hlen := utf8DecodeOne_length _ _ _ hone
    simp only [List.length_cons] at hlen
    simp only [List.length_cons, utf8DecodeAux, hone]
    rw [utf8DecodeAux_fuel tl.length rest2.length rest2 (by omega) (le_refl _)]
    rfl

theorem utf8Decode_encodeChar (c : Char) (rest : List Nat) :
    utf8Decode (utf8EncodeChar c ++ rest) =
      match utf8Decode rest with
      | some cs => some (c :: cs)
      | none => none := by
  have hone := utf8DecodeOne_encodeChar c rest
  have hpos := utf8EncodeChar_length_pos c
  match henc : utf8EncodeChar c with
  | [] => rw [henc] at hpos; simp at hpos
  | b :: etl =>
    rw [henc] at hone
    rw [List.cons_append] at hone ⊢
    rw [utf8Decode_cons_eq, hone]

theorem utf8Decode_encode_append (s : List Char) (extra : List Nat) :
    utf8Decode (utf8Encode s ++ extra) =
      match utf8Decode extra with
      | some cs => some (s ++ cs)
      | none => none := by
  induction s with
  | nil =>
      simp only [utf8Encode, List.map_nil, List.flatten_nil, List.nil_append]
      cases utf8Decode extra <;> simp
  | cons c tl ih =>
      simp only [utf8Encode, List.map_cons, List.flatten_cons, List.append_assoc]
      rw [show (tl.map utf8EncodeChar).flatten ++ extra = utf8Encode tl ++ extra from rfl]
      rw [utf8Decode_encodeChar c _, ih]
      cases utf8Decode extra <;> simp

theorem utf8Decode_replicate_zero (m : Nat) :
    utf8Decode (List.replicate m 0) = some (List.replicate m (Char.ofNat 0)) := by
  induction m with
  | zero => rfl
  | succ m ih =>
      rw [List.replicate_succ, utf8Decode_cons_eq]
      have h1 : utf8DecodeOne (0 :: List.replicate m 0)
          = some (Char.ofNat 0, List.replicate m 0) := by
        simp [utf8DecodeOne]
      rw [h1]
      simp [ih, List.replicate_succ]

/-! ## Identifier codec

Embeds `console/program/src/data/identifier/string.rs`: `Identifier::from_str`
(encode) and the `fmt::Display` impl (decode).  The character classification
predicates `is_numeric`/`is_alphanumeric` come from Rust's standard library
Unicode tables, external to this repository, so the codec is parameterized over
them; witnesses instantiate them with their ASCII restrictions. -/

/-- Modelled from the spec: the active algebraic parameters, exposing the
field's bit sizes — `size_in_data_bits` (data capacity) and `size_in_bits`
(the length of `Field::to_bits_le`), with `dataBits ≤ totalBits` assumed where
needed (251 < 253 on the real curve). -/
structure FieldParams where
  dataBits : Nat
  totalBits : Nat
deriving DecidableEq

/-- An `Identifier<N>`: a field element (as `Nat`) plus the `u8` byte length. -/
structure Identifier where
  value : Nat
  length : Nat
deriving DecidableEq

/-- Modelled from the spec: `N::field_from_bits_le` packs a little-endian bit
sequence into a field element; it succeeds whenever the bits fit in the field's
data capacity ("pack into the target field element", capacity = max bits
losslessly embeddable). -/
def fieldFromBitsLE (p : FieldParams) (bits : List Bool) : Option Nat :=
  if bits.length ≤ p.dataBits then some (natOfBitsLE bits) else none

/-- Modelled from the spec: `Field::to_bits_le` — "expand the field value back
to its little-endian bit sequence", of length `size_in_bits`. -/
def fieldToBitsLE (p : FieldParams) (v : Nat) : List Bool := natToBitsLE p.totalBits v

/-- `Identifier::from_str`: validate the candidate name and pack its bytes'
little-endian bits into a field element, storing the byte length (`as u8`,
hence `% 256`). -/
def Identifier.from_str (p : FieldParams) (isNumeric isAlphanumeric : Char → Bool)
    (identifier : List Char) : Option Identifier :=
  match identifier.head? with
  | none => none
  | some character =>
    if isNumeric character then none
    else if ! identifier.all (fun ch => isAlphanumeric ch || ch == '_') then none
    else if identifier.all (fun ch => ch == '_') then none
    else
      if (utf8Encode identifier).length > p.dataBits / 8 then none
      else
        match fieldFromBitsLE p (bytesToBitsLE (utf8Encode identifier)) with
        | some f => some ⟨f, (utf8Encode identifier).length % 256⟩
        | none => none

/-- The `fmt::Display` impl for `Identifier`: field bits → bytes → UTF-8 →
truncate at the first `'\x00'` → check the stored length; `none` models
`fmt::Error`. -/
def Identifier.fmt (p : FieldParams) (id : Identifier) : Option (List Char) :=
  match utf8Decode (bitsToBytesLE (fieldToBitsLE p id.value)) with
  | none => none
  | some string =>
    if utf8ByteLength (string.takeWhile (fun ch => ch != Char.ofNat 0)) = id.length
    then some (string.takeWhile (fun ch => ch != Char.ofNat 0))
    else none

theorem takeWhile_append_all {α} (P : α → Bool) (l l2 : List α)
    (h : ∀ c ∈ l, P c = true) :
    (l ++ l2).takeWhile P = l ++ l2.takeWhile P := by
  induction l with
  | nil => simp
  | cons a tl ih =>
      have ha : P a = true := h a (by simp)
      simp [List.takeWhile_cons, ha, ih (fun c hc => h c (by simp [hc]))]

theorem takeWhile_replicate_none {α} (P : α → Bool) (m : Nat) (c : α)
    (h : P c = false) : (List.replicate m c).takeWhile P = [] := by
  cases m with
  | zero => rfl
  | succ m => simp [List.replicate_succ, List.takeWhile_cons, h]

theorem utf8Encode_lt_256 (s : List Char) : ∀ b ∈ utf8Encode s, b < 256 := by
  intro b hb
  simp only [utf8Encode, List.mem_flatten, List.mem_map] at hb
  obtain ⟨l, ⟨c, _, rfl⟩, hbl⟩ := hb
  exact utf8EncodeChar_lt_256 c b hbl

theorem from_str_some_inv (p : FieldParams) (isNum isAlnum : Char → Bool)
    (name : List Char) (id : Identifier)
    (h : Identifier.from_str p isNum isAlnum name = some id) :
    (∀ c ∈ name, isAlnum c = true ∨ c = '_')
    ∧ (utf8Encode name).length ≤ p.dataBits / 8
    ∧ id = ⟨natOfBitsLE (bytesToBitsLE (utf8Encode name)), (utf8Encode name).length % 256⟩ := by
  cases name with
  | nil => simp [Identifier.from_str] at h
  | cons c tl =>
    simp only [Identifier.from_str, List.head?_cons] at h
    by_cases hnum : isNum c = true
    · rw [if_pos hnum] at h
      exact absurd h (by simp)
    · rw [if_neg hnum] at h
      cases hall : (c :: tl).all (fun ch => isAlnum ch || ch == '_') with
      | false =>
          rw [if_pos (by simp [hall])] at h
          exact absurd h (by simp)
      | true =>
        rw [if_neg (by simp [hall])] at h
        cases hunder : (c :: tl).all (fun ch => ch == '_') with
        | true =>
            rw [if_pos (by simp [hunder])] at h
            exact absurd h (by simp)
        | false =>
          rw [if_neg (by simp [hunder])] at h
          by_cases hcap : (utf8Encode (c :: tl)).length > p.dataBits / 8
          · rw [if_pos hcap] at h
            exact absurd h (by simp)
          · rw [if_neg hcap] at h
            have hfield : fieldFromBitsLE p (bytesToBitsLE (utf8Encode (c :: tl)))
                = some (natOfBitsLE (bytesToBitsLE (utf8Encode (c :: tl)))) := by
              unfold fieldFromBitsLE
              rw [if_pos (by rw [bytesToBitsLE_length]; omega)]
            rw [hfield] at h
            simp only [Option.some.injEq] at h
            refine ⟨?_, by omega, h.symm⟩
            intro ch hch
            have hor := List.all_eq_true.mp hall ch hch
            simp only [Bool.or_eq_true, beq_iff_eq] at hor
            exact hor

/-- C1: for every name accepted by `Identifier::from_str`, the `Display` impl
recovers exactly the original name: decode (encode name) = name. -/
theorem from_str_fmt_roundtrip (p : FieldParams) (isNum isAlnum : Char → Bool)
    (name : List Char) (id : Identifier)
    (hzero : isAlnum (Char.ofNat 0) = false)
    (hdt : p.dataBits ≤ p.totalBits)
    (h255 : p.dataBits / 8 ≤ 255)
    (henc : Identifier.from_str p isNum isAlnum name = some id) :
    Identifier.fmt p id = some name := by
  obtain ⟨hchars, hcap, hid⟩ := from_str_some_inv p isNum isAlnum name id henc
  subst hid
  have hblt : ∀ b ∈ utf8Encode name, b < 256 := utf8Encode_lt_256 name
  have hbits_len : (bytesToBitsLE (utf8Encode name)).length = 8 * (utf8Encode name).length :=
    bytesToBitsLE_length _
  have h8cap : 8 * (utf8Encode name).length ≤ p.dataBits := by omega
  have h1 : fieldToBitsLE p (natOfBitsLE (bytesToBitsLE (utf8Encode name)))
      = bytesToBitsLE (utf8Encode name)
        ++ List.replicate (p.totalBits - 8 * (utf8Encode name).length) false := by
    unfold fieldToBitsLE
    rw [natToBitsLE_natOfBitsLE _ _ (by omega), hbits_len]
  have h2 : bitsToBytesLE (bytesToBitsLE (utf8Encode name)
        ++ List.replicate (p.totalBits - 8 * (utf8Encode name).length) false)
      = utf8Encode name
        ++ List.replicate ((p.totalBits - 8 * (utf8Encode name).length + 7) / 8) 0 := by
    rw [bitsToBytesLE_append _ _ hblt, chunksOf8_replicate_false]
  have h3 : utf8Decode (utf8Encode name
        ++ List.replicate ((p.totalBits - 8 * (utf8Encode name).length + 7) / 8) 0)
      = some (name
        ++ List.replicate ((p.totalBits - 8 * (utf8Encode name).length + 7) / 8) (Char.ofNat 0)) := by
    rw [utf8Decode_encode_append, utf8Decode_replicate_zero]
  have hname0 : ∀ c ∈ name, (c != Char.ofNat 0) = true := by
    intro c hc
    rcases hchars c hc with hcal | hcu
    · simp only [bne_iff_ne, ne_eq]
      intro heq
      rw [heq, hzero] at hcal
      exact Bool.false_ne_true hcal
    · subst hcu
      decide
  have htake : (name
        ++ List.replicate ((p.totalBits - 8 * (utf8Encode name).length + 7) / 8) (Char.ofNat 0)).takeWhile
          (fun ch => ch != Char.ofNat 0) = name := by
    rw [takeWhile_append_all _ _ _ hname0, takeWhile_replicate_none _ _ _ (by simp)]
    simp
  have hmod : (utf8Encode name).length % 256 = (utf8Encode name).length :=
    Nat.mod_eq_of_lt (by omega)
  unfold Identifier.fmt
  rw [h1, h2, h3]
  simp only [htake, hmod]
  simp [utf8ByteLength]

/-- C7: `Identifier::from_str` fails exactly when the name is empty, starts with
a numeric character, contains a character that is neither alphanumeric nor an
underscore, consists solely of underscores, or has byte length exceeding
`size_in_data_bits / 8`; on every other name it succeeds, with field value the
little-endian bit-packing of the name's bytes and stored length the exact byte
length. -/
theorem from_str_exact_conditions (p : FieldParams) (isNum isAlnum : Char → Bool)
    (name : List Char) (h255 : p.dataBits / 8 ≤ 255) :
    (Identifier.from_str p isNum isAlnum name = none ↔
      (name = []
        ∨ (∃ c tl, name = c :: tl ∧ isNum c = true)
        ∨ (∃ c ∈ name, isAlnum c = false ∧ c ≠ '_')
        ∨ (∀ c ∈ name, c = '_')
        ∨ p.dataBits / 8 < (utf8Encode name).length))
    ∧ (Identifier.from_str p isNum isAlnum name = none
        ∨ Identifier.from_str p isNum isAlnum name
          = some ⟨natOfBitsLE (bytesToBitsLE (utf8Encode name)), (utf8Encode name).length⟩) := by
  cases name with
  | nil =>
      refine ⟨?_, Or.inl (by simp [Identifier.from_str])⟩
      simp [Identifier.from_str]
  | cons c tl =>
    simp only [Identifier.from_str, List.head?_cons]
    by_cases hnum : isNum c = true
    · rw [if_pos hnum]
      exact ⟨⟨fun _ => Or.inr (Or.inl ⟨c, tl, rfl, hnum⟩), fun _ => rfl⟩, Or.inl rfl⟩
    · rw [if_neg hnum]
      cases hall : (c :: tl).all (fun ch => isAlnum ch || ch == '_') with
      | false =>
          rw [if_pos (by simp [hall])]
          have hbad : ∃ ch ∈ c :: tl, isAlnum ch = false ∧ ch ≠ '_' := by
            have := List.all_eq_false.mp hall
            obtain ⟨ch, hmem, hch⟩ := this
            refine ⟨ch, hmem, ?_, ?_⟩
            · cases hfb : isAlnum ch with
              | false => rfl
              | true => exact absurd (by simp [hfb]) hch
            · intro heq
              exact hch (by simp [heq])
          exact ⟨⟨fun _ => Or.inr (Or.inr (Or.inl hbad)), fun _ => rfl⟩, Or.inl rfl⟩
      | true =>
        rw [if_neg (by simp [hall])]
        cases hunder : (c :: tl).all (fun ch => ch == '_') with
        | true =>
            rw [if_pos (by simp [hunder])]
            have hund2 : ∀ ch ∈ c :: tl, ch = '_' := by
              intro ch hch
              have := List.all_eq_true.mp hunder ch hch
              simpa using this
            exact ⟨⟨fun _ => Or.inr (Or.inr (Or.inr (Or.inl hund2))), fun _ => rfl⟩, Or.inl rfl⟩
        | false =>
          rw [if_neg (by simp [hunder])]
          by_cases hcap : (utf8Encode (c :: tl)).length > p.dataBits / 8
          · rw [if_pos hcap]
            exact ⟨⟨fun _ => Or.inr (Or.inr (Or.inr (Or.inr hcap))), fun _ => rfl⟩, Or.inl rfl⟩
          · rw [if_neg hcap]
            have hfield : fieldFromBitsLE p (bytesToBitsLE (utf8Encode (c :: tl)))
                = some (natOfBitsLE (bytesToBitsLE (utf8Encode (c :: tl)))) := by
              unfold fieldFromBitsLE
              rw [if_pos (by rw [bytesToBitsLE_length]; omega)]
            rw [hfield]
            have hmod : (utf8Encode (c :: tl)).length % 256 = (utf8Encode (c :: tl)).length :=
              Nat.mod_eq_of_lt (by omega)
            constructor
            · constructor
              · intro habs
                exact absurd habs (by simp)
              · intro hRHS
                exfalso
                rcases hRHS with h | ⟨c2, tl2, heq, hnum2⟩ | ⟨ch, hmem, hf, hne⟩ | hallund | hcap2
                · exact List.cons_ne_nil c tl h
                · rw [List.cons.injEq] at heq
                  exact hnum (heq.1 ▸ hnum2)
                · have := List.all_eq_true.mp hall ch hmem
                  simp only [Bool.or_eq_true, beq_iff_eq] at this
                  rcases this with h1 | h1
                  · rw [hf] at h1
                    exact Bool.false_ne_true h1
                  · exact hne h1
                · have : (c :: tl).all (fun ch => ch == '_') = true :=
                    List.all_eq_true.mpr (fun x hx => by simp [hallund x hx])
                  rw [hunder] at this
                  exact Bool.false_ne_true this
                · exact hcap hcap2
            · right
              simp [hmod]

/-- C8: the `Display` impl fails whenever the recovered bytes are not valid
UTF-8, and whenever the decoded text truncated at the first zero byte has a
byte length different from the stored length; a mismatch is never accepted. -/
theorem fmt_error_conditions (p : FieldParams) (id : Identifier) :
    (utf8Decode (bitsToBytesLE (fieldToBitsLE p id.value)) = none →
      Identifier.fmt p id = none)
    ∧ (∀ s, utf8Decode (bitsToBytesLE (fieldToBitsLE p id.value)) = some s →
        utf8ByteLength (s.takeWhile (fun ch => ch != Char.ofNat 0)) ≠ id.length →
        Identifier.fmt p id = none) := by
  constructor
  · intro hdec
    unfold Identifier.fmt
    rw [hdec]
  · intro s hdec hne
    unfold Identifier.fmt
    rw [hdec]
    simp only [if_neg hne]

/-- ASCII restriction of Rust `char::is_numeric`, used to instantiate witnesses. -/
def asciiIsNumeric (c : Char) : Bool := c.isDigit

/-- ASCII restriction of Rust `char::is_alphanumeric`, used to instantiate witnesses. -/
def asciiIsAlphanumeric (c : Char) : Bool := c.isAlphanum

/-- `Testnet3`-sized field parameters: 253-bit field with 252 data bits. -/
def testnet3Params : FieldParams := ⟨252, 253⟩

/-- The name `"foo_bar"` as a character list. -/
def fooBarName : List Char := ['f', 'o', 'o', '_', 'b', 'a', 'r']

/-- Witness for C1: `"foo_bar"` encodes to the little-endian packing of its
bytes with length 7, and `Display` recovers `"foo_bar"` from it. -/
theorem from_str_fmt_roundtrip_witness :
    Identifier.fmt testnet3Params ⟨32195222480842598, 7⟩ = some fooBarName :=
  from_str_fmt_roundtrip testnet3Params asciiIsNumeric asciiIsAlphanumeric fooBarName
    ⟨32195222480842598, 7⟩ (by decide) (by decide) (by decide) (by decide)

/-- Witness for C7: `"_"` is rejected (solely underscores). -/
theorem from_str_exact_conditions_witness :
    Identifier.from_str testnet3Params asciiIsNumeric asciiIsAlphanumeric ['_'] = none :=
  (from_str_exact_conditions testnet3Params asciiIsNumeric asciiIsAlphanumeric ['_']
    (by decide)).1.mpr (Or.inr (Or.inr (Or.inr (Or.inl (by decide)))))

/-- Witness for C8: the identifier whose field value is 255 recovers the byte
`0xFF`, which is not valid UTF-8, so `Display` fails. -/
theorem fmt_error_conditions_witness :
    Identifier.fmt testnet3Params ⟨255, 1⟩ = none :=
  (fmt_error_conditions testnet3Params ⟨255, 1⟩).1 (by decide)

/-! ## Transaction authorization (`dpc/src/transaction/authorization.rs`)

The DPC `Parameters` trait bundle is modelled as a structure of types,
protocol constants and external primitives (signature, commitment, encryption
and per-component byte codecs are external collaborators, so they are fields).
Randomness is passed explicitly (`UniformRand::rand(rng)` becomes an explicit
randomness argument; the record-encryption rng is threaded as state). -/

structure DpcScheme : Type 1 where
  Kernel : Type
  Record : Type
  Sig : Type
  CKey : Type
  Commitment : Type
  CRand : Type
  Ciphertext : Type
  CtHash : Type
  Randomizer : Type
  Rng : Type
  numInputRecords : Nat
  numOutputRecords : Nat
  kernelIsValid : Kernel → Bool
  programIdToBytes : Record → Option (List Nat)
  programCommit : List Nat → CRand → Option Commitment
  encryptRecord : Record → Rng → Option ((Ciphertext × Randomizer) × Rng)
  hashCiphertext : Ciphertext → Option CtHash
  kernelToBytes : Kernel → List Nat
  kernelFromBytes : List Nat → Option (Kernel × List Nat)
  recordToBytes : Record → List Nat
  recordFromBytes : List Nat → Option (Record × List Nat)
  sigToBytes : Sig → List Nat
  sigFromBytes : List Nat → Option (Sig × List Nat)
  ckeyToBytes : CKey → List Nat
  ckeyFromBytes : List Nat → Option (CKey × List Nat)

/-- `C::NUM_TOTAL_RECORDS`, the sum of the input and output record counts. -/
def DpcScheme.numTotalRecords (S : DpcScheme) : Nat :=
  S.numInputRecords + S.numOutputRecords

/-- The `StateTransition` interface consumed by the aggregator: kernel,
records and noop compute keys (`state.to_noop_compute_keys()`). -/
structure StateTransition (S : DpcScheme) where
  kernel : S.Kernel
  input_records : List S.Record
  output_records : List S.Record
  noop_compute_keys : List (Option S.CKey)

/-- `TransactionAuthorization<C>`. -/
structure TransactionAuthorization (S : DpcScheme) where
  kernel : S.Kernel
  input_records : List S.Record
  output_records : List S.Record
  signatures : List S.Sig
  noop_compute_keys : List (Option S.CKey)

instance {S : DpcScheme} [DecidableEq S.Kernel] [DecidableEq S.Record]
    [DecidableEq S.Sig] [DecidableEq S.CKey] :
    DecidableEq (TransactionAuthorization S) := fun a b =>
  decidable_of_iff
    (a.kernel = b.kernel ∧ a.input_records = b.input_records
      ∧ a.output_records = b.output_records ∧ a.signatures = b.signatures
      ∧ a.noop_compute_keys = b.noop_compute_keys)
    (by
      obtain ⟨k1, i1, o1, s1, n1⟩ := a
      obtain ⟨k2, i2, o2, s2, n2⟩ := b
      constructor
      · rintro ⟨rfl, rfl, rfl, rfl, rfl⟩
        rfl
      · intro h
        injection h with h1 h2 h3 h4 h5
        exact ⟨h1, h2, h3, h4, h5⟩)

/-- Outcome of `TransactionAuthorization::from`: the function's Rust type is
infallible (`Self`), but `debug_assert!` can abort in builds with debug
assertions enabled; `panicked` models that abort. -/
inductive BuildOutcome (S : DpcScheme) where
  | panicked (msg : String)
  | built (auth : TransactionAuthorization S)

/-- `TransactionAuthorization::from(state, signatures)`.  The four
`debug_assert!`/`debug_assert_eq!` checks run only when `debugAssertions` is
true (a debug build); in release builds the object is constructed unchecked. -/
def TransactionAuthorization.fromState {S : DpcScheme} (debugAssertions : Bool)
    (state : StateTransition S) (signatures : List S.Sig) : BuildOutcome S :=
  if debugAssertions && !(S.kernelIsValid state.kernel) then
    .panicked "state.kernel().is_valid()"
  else if debugAssertions && !(state.input_records.length == S.numInputRecords) then
    .panicked "NUM_INPUT_RECORDS == state.input_records().len()"
  else if debugAssertions && !(state.output_records.length == S.numOutputRecords) then
    .panicked "NUM_OUTPUT_RECORDS == state.output_records().len()"
  else if debugAssertions && !(signatures.length == S.numInputRecords) then
    .panicked "NUM_INPUT_RECORDS == signatures.len()"
  else
    .built ⟨state.kernel, state.input_records, state.output_records, signatures,
      state.noop_compute_keys⟩

/-- Outcome of `to_program_commitment`: `panicked` models the `expect` on the
program-identifier byte conversion, `err` the `?`-propagated commitment error. -/
inductive CommitOutcome (S : DpcScheme) where
  | panicked (msg : String)
  | err
  | ok (commitment : S.Commitment) (randomness : S.CRand)

/-- The `flat_map` over `record.program_id().to_bytes_le().expect(..)`:
collects the concatenated byte forms, `none` when any conversion fails. -/
def collectProgramIdBytes (S : DpcScheme) : List S.Record → Option (List Nat)
  | [] => some []
  | r :: rest =>
    (S.programIdToBytes r).bind (fun bs =>
      (collectProgramIdBytes S rest).bind (fun tailBytes => some (bs ++ tailBytes)))

/-- `TransactionAuthorization::to_program_commitment`, with the sampled
randomness passed explicitly. -/
def TransactionAuthorization.to_program_commitment {S : DpcScheme}
    (auth : TransactionAuthorization S) (program_randomness : S.CRand) : CommitOutcome S :=
  match collectProgramIdBytes S
      ((auth.input_records ++ auth.output_records).take S.numTotalRecords) with
  | none => .panicked "Failed to convert program ID to bytes"
  | some program_ids =>
    match S.programCommit program_ids program_randomness with
    | none => .err
    | some commitment => .ok commitment program_randomness

/-- A concrete instantiation used by witnesses: all opaque types are `Nat` or
`List Nat`, codecs are one-byte identity encodings. -/
@[reducible] def testScheme : DpcScheme where
  Kernel := Nat
  Record := Nat
  Sig := Nat
  CKey := Nat
  Commitment := List Nat
  CRand := Nat
  Ciphertext := List Nat
  CtHash := Nat
  Randomizer := Nat
  Rng := Nat
  numInputRecords := 2
  numOutputRecords := 2
  kernelIsValid := fun k => k != 0
  programIdToBytes := fun r => some [r % 256]
  programCommit := fun bytes r => some (r :: bytes)
  encryptRecord := fun r rng => some (([r + rng], rng), rng + 1)
  hashCiphertext := fun ct => some ct.length
  kernelToBytes := fun k => [k]
  kernelFromBytes := fun l => match l with | b :: rest => some (b, rest) | [] => none
  recordToBytes := fun r => [r]
  recordFromBytes := fun l => match l with | b :: rest => some (b, rest) | [] => none
  sigToBytes := fun s => [s]
  sigFromBytes := fun l => match l with | b :: rest => some (b, rest) | [] => none
  ckeyToBytes := fun k => [k]
  ckeyFromBytes := fun l => match l with | b :: rest => some (b, rest) | [] => none

/-- Like `testScheme`, but every program-identifier byte conversion fails. -/
@[reducible] def failScheme : DpcScheme :=
  { testScheme with programIdToBytes := fun _ => none }

/-- C2 counterexample: with debug assertions disabled (any release build), a
signature-count mismatch does not fail — the object is constructed anyway, and
no `InvariantError` exists in the function's type. -/
theorem fromState_release_constructs_on_mismatch :
    TransactionAuthorization.fromState (S := testScheme) false
        ⟨1, [5, 6], [7, 8], [none, none]⟩ []
      = .built ⟨1, [5, 6], [7, 8], [], [none, none]⟩
    ∧ ([] : List Nat).length ≠ testScheme.numInputRecords := by
  exact ⟨rfl, by decide⟩

/-- C2 (amended): the count/validity checks in `TransactionAuthorization::from`
are debug-only assertions: with debug assertions enabled a signature-count
mismatch (the other invariants holding) panics, and with them disabled the
object is always constructed, unchecked, from the copied state fields. -/
theorem fromState_debug_assert_behavior {S : DpcScheme} (state : StateTransition S)
    (signatures : List S.Sig)
    (hk : S.kernelIsValid state.kernel = true)
    (hin : state.input_records.length = S.numInputRecords)
    (hout : state.output_records.length = S.numOutputRecords)
    (hsig : signatures.length ≠ S.numInputRecords) :
    TransactionAuthorization.fromState true state signatures
      = .panicked "NUM_INPUT_RECORDS == signatures.len()"
    ∧ TransactionAuthorization.fromState false state signatures
      = .built ⟨state.kernel, state.input_records, state.output_records, signatures,
          state.noop_compute_keys⟩ := by
  constructor
  · unfold TransactionAuthorization.fromState
    rw [if_neg (by simp [hk]), if_neg (by simp [hin]), if_neg (by simp [hout]),
      if_pos (by simp [hsig])]
  · unfold TransactionAuthorization.fromState
    simp

/-- Witness for C2: on `testScheme`, a debug build panics on the empty
signature list while the other invariants hold. -/
theorem fromState_debug_assert_behavior_witness :
    TransactionAuthorization.fromState (S := testScheme) true
        ⟨3, [5, 6], [7, 8], [none, none]⟩ []
      = .panicked "NUM_INPUT_RECORDS == signatures.len()" :=
  (fromState_debug_assert_behavior ⟨3, [5, 6], [7, 8], [none, none]⟩ []
    (by decide) (by decide) (by decide) (by decide)).1

/-- C3 counterexample: a failing program-identifier byte conversion makes
`to_program_commitment` abort via the `expect` panic rather than return an
error result. -/
theorem to_program_commitment_aborts :
    TransactionAuthorization.to_program_commitment (S := failScheme)
        ⟨1, [5, 6], [7, 8], [9, 10], [none, none]⟩ 0
      = .panicked "Failed to convert program ID to bytes" := rfl

/-- C3 (amended): whenever converting the gathered records' program
identifiers to bytes fails, `to_program_commitment` panics (aborts) with the
`expect` message instead of propagating the failure as an error result. -/
theorem to_program_commitment_panic_on_conversion_failure {S : DpcScheme}
    (auth : TransactionAuthorization S) (r : S.CRand)
    (h : collectProgramIdBytes S
        ((auth.input_records ++ auth.output_records).take S.numTotalRecords) = none) :
    auth.to_program_commitment r = .panicked "Failed to convert program ID to bytes" := by
  unfold TransactionAuthorization.to_program_commitment
  rw [h]

/-- Witness for C3: concrete aborting input on `failScheme`. -/
theorem to_program_commitment_panic_witness :
    TransactionAuthorization.to_program_commitment (S := failScheme)
        ⟨2, [11], [12], [13], [none]⟩ 5
      = .panicked "Failed to convert program ID to bytes" :=
  to_program_commitment_panic_on_conversion_failure ⟨2, [11], [12], [13], [none]⟩ 5 rfl

theorem collectProgramIdBytes_all_some {S : DpcScheme} (ids : S.Record → List Nat)
    (hids : ∀ r, S.programIdToBytes r = some (ids r)) (l : List S.Record) :
    collectProgramIdBytes S l = some ((l.map ids).flatten) := by
  induction l with
  | nil => rfl
  | cons r rest ih => simp [collectProgramIdBytes, hids r, ih]

theorem flatten_fixed_width_inj {α : Type} (w : Nat) (hw : 0 < w) :
    ∀ l1 l2 : List (List α), (∀ x ∈ l1, x.length = w) → (∀ x ∈ l2, x.length = w) →
    l1.flatten = l2.flatten → l1 = l2 := by
  intro l1
  induction l1 with
  | nil =>
      intro l2 h1 h2 h
      cases l2 with
      | nil => rfl
      | cons b bs =>
          exfalso
          have hb : b.length = w := h2 b (by simp)
          have hlen := congrArg List.length h
          simp only [List.flatten_nil, List.flatten_cons, List.length_nil,
            List.length_append] at hlen
          omega
  | cons a as ih =>
      intro l2 h1 h2 h
      cases l2 with
      | nil =>
          exfalso
          have ha : a.length = w := h1 a (by simp)
          have hlen := congrArg List.length h
          simp only [List.flatten_nil, List.flatten_cons, List.length_nil,
            List.length_append] at hlen
          omega
      | cons b bs =>
          simp only [List.flatten_cons] at h
          have ha : a.length = w := h1 a (by simp)
          have hb : b.length = w := h2 b (by simp)
          have heq : a = b := by
            have t1 : (a ++ as.flatten).take w = a := List.take_left' ha
            have t2 : (b ++ bs.flatten).take w = b := List.take_left' hb
            rw [← t1, ← t2, h]
          subst heq
          have htail : as.flatten = bs.flatten := by
            have h1' := congrArg (List.drop a.length) h
            rwa [List.drop_left, List.drop_left] at h1'
          rw [ih bs (fun x hx => h1 x (by simp [hx])) (fun x hx => h2 x (by simp [hx])) htail]

/-- C5: the program commitment input is exactly the in-order concatenation of
the byte forms of the program identifiers of `input_records` followed by
`output_records`, truncated to at most `NUM_TOTAL_RECORDS` records; the
operation is a pure function of the records and the sampled randomness
(deterministic); and two authorizations whose ordered identifier-byte
sequences differ — e.g. after swapping two records with distinct (fixed-width)
identifiers, which leaves the multiset unchanged — commit to different
inputs. -/
theorem to_program_commitment_spec {S : DpcScheme}
    (ids : S.Record → List Nat) (w : Nat)
    (hids : ∀ r, S.programIdToBytes r = some (ids r))
    (hw : ∀ r, (ids r).length = w) (hwpos : 0 < w) :
    (∀ (auth : TransactionAuthorization S) (rand : S.CRand),
      auth.to_program_commitment rand
        = match S.programCommit
            ((((auth.input_records ++ auth.output_records).take S.numTotalRecords).map
              ids).flatten) rand with
          | none => CommitOutcome.err
          | some c => CommitOutcome.ok c rand)
    ∧ (∀ (auth1 auth2 : TransactionAuthorization S) (r1 r2 : S.CRand),
        auth1 = auth2 → r1 = r2 →
        auth1.to_program_commitment r1 = auth2.to_program_commitment r2)
    ∧ (∀ auth1 auth2 : TransactionAuthorization S,
        ((auth1.input_records ++ auth1.output_records).take S.numTotalRecords).map ids
          ≠ ((auth2.input_records ++ auth2.output_records).take S.numTotalRecords).map ids →
        (((auth1.input_records ++ auth1.output_records).take S.numTotalRecords).map
            ids).flatten
          ≠ (((auth2.input_records ++ auth2.output_records).take S.numTotalRecords).map
            ids).flatten) := by
  refine ⟨?_, ?_, ?_⟩
  · intro auth rand
    unfold TransactionAuthorization.to_program_commitment
    rw [collectProgramIdBytes_all_some ids hids]
  · rintro auth1 auth2 r1 r2 rfl rfl
    rfl
  · intro auth1 auth2 hne hflat
    exact hne (flatten_fixed_width_inj w hwpos _ _
      (fun x hx => by obtain ⟨r, _, rfl⟩ := List.mem_map.mp hx; exact hw r)
      (fun x hx => by obtain ⟨r, _, rfl⟩ := List.mem_map.mp hx; exact hw r) hflat)

/-- Witness for C5: on `testScheme` with one-byte identifiers, the committed
input is the ordered identifier bytes of inputs then outputs. -/
theorem to_program_commitment_spec_witness :
    TransactionAuthorization.to_program_commitment (S := testScheme)
        ⟨1, [5, 6], [7, 8], [9, 10], [none, none]⟩ 3
      = CommitOutcome.ok [3, 5, 6, 7, 8] 3 := by
  have h := (to_program_commitment_spec (S := testScheme) (fun r => [r % 256]) 1
    (fun r => rfl) (fun r => rfl) (by decide)).1 ⟨1, [5, 6], [7, 8], [9, 10], [none, none]⟩ 3
  rw [h]
  rfl

/-- `EncryptedRecord::encrypt` + `to_hash` loop of `to_encrypted_records`,
threading the rng state through successive encryptions. -/
def encryptRecords {S : DpcScheme} : List S.Record → S.Rng →
    Option (List S.Ciphertext × List S.CtHash × List S.Randomizer)
  | [], _ => some ([], [], [])
  | record :: rest, rng =>
    (S.encryptRecord record rng).bind (fun step =>
      (S.hashCiphertext step.1.1).bind (fun hsh =>
        (encryptRecords rest step.2).bind (fun tl =>
          some (step.1.1 :: tl.1, hsh :: tl.2.1, step.1.2 :: tl.2.2))))

/-- `TransactionAuthorization::to_encrypted_records` (rng passed explicitly). -/
def TransactionAuthorization.to_encrypted_records {S : DpcScheme}
    (auth : TransactionAuthorization S) (rng : S.Rng) :
    Option (List S.Ciphertext × List S.CtHash × List S.Randomizer) :=
  encryptRecords (auth.output_records.take S.numOutputRecords) rng

/-- Per-index alignment of `to_encrypted_records` output: position `i` holds
the ciphertext and randomizer produced by encrypting record `i` under the
threaded rng state, and the hash of that ciphertext. -/
inductive EncryptTrace {S : DpcScheme} :
    List S.Record → S.Rng → List S.Ciphertext → List S.CtHash → List S.Randomizer → Prop
  | nil (rng : S.Rng) : EncryptTrace [] rng [] [] []
  | cons {record : S.Record} {rng rng2 : S.Rng} {ct : S.Ciphertext} {rz : S.Randomizer}
      {hsh : S.CtHash} {rest : List S.Record} {cts : List S.Ciphertext}
      {hs : List S.CtHash} {rzs : List S.Randomizer} :
      S.encryptRecord record rng = some ((ct, rz), rng2) →
      S.hashCiphertext ct = some hsh →
      EncryptTrace rest rng2 cts hs rzs →
      EncryptTrace (record :: rest) rng (ct :: cts) (hsh :: hs) (rz :: rzs)

theorem encryptRecords_inv {S : DpcScheme} :
    ∀ (records : List S.Record) (rng : S.Rng) cts hs rzs,
    encryptRecords records rng = some (cts, hs, rzs) →
    cts.length = records.length ∧ hs.length = records.length ∧ rzs.length = records.length
    ∧ EncryptTrace records rng cts hs rzs := by
  intro records
  induction records with
  | nil =>
      intro rng cts hs rzs h
      simp only [encryptRecords, Option.some.injEq, Prod.mk.injEq] at h
      obtain ⟨rfl, rfl, rfl⟩ := h
      exact ⟨rfl, rfl, rfl, EncryptTrace.nil rng⟩
  | cons r rest ih =>
      intro rng cts hs rzs h
      simp only [encryptRecords] at h
      cases he : S.encryptRecord r rng with
      | none => rw [he] at h; simp at h
      | some step =>
        rw [he] at h
        simp only [Option.some_bind] at h
        obtain ⟨⟨ct, rz⟩, rng2⟩ := step
        cases hh : S.hashCiphertext ct with
        | none => rw [hh] at h; simp at h
        | some hsh =>
          rw [hh] at h
          simp only [Option.some_bind] at h
          cases hrec : encryptRecords rest rng2 with
          | none => rw [hrec] at h; simp at h
          | some tl =>
            rw [hrec] at h
            obtain ⟨cts2, hs2, rzs2⟩ := tl
            simp only [Option.some_bind, Option.some.injEq, Prod.mk.injEq] at h
            obtain ⟨rfl, rfl, rfl⟩ := h
            obtain ⟨l1, l2, l3, htr⟩ := ih rng2 cts2 hs2 rzs2 hrec
            exact ⟨by simp [l1], by simp [l2], by simp [l3],
              EncryptTrace.cons he hh htr⟩

/-- C6 counterexample: an authorization with fewer output records than
`NUM_OUTPUT_RECORDS` succeeds with sequences strictly shorter than
`NUM_OUTPUT_RECORDS` (here empty, against a constant of 2). -/
theorem to_encrypted_records_short :
    TransactionAuthorization.to_encrypted_records (S := testScheme)
        ⟨1, [5, 6], [], [9, 10], [none, none]⟩ 0 = some ([], [], [])
    ∧ testScheme.numOutputRecords = 2 := ⟨rfl, rfl⟩

/-- C6 (amended): on success, `to_encrypted_records` returns three
index-aligned sequences of length `min NUM_OUTPUT_RECORDS
output_records.length` — so exactly `NUM_OUTPUT_RECORDS` whenever the
authorization carries at least `NUM_OUTPUT_RECORDS` output records — where
position `i` holds the ciphertext from encrypting output record `i`, that
ciphertext's hash, and the randomizer from that encryption. -/
theorem to_encrypted_records_aligned {S : DpcScheme} (auth : TransactionAuthorization S)
    (rng : S.Rng) (cts : List S.Ciphertext) (hs : List S.CtHash) (rzs : List S.Randomizer)
    (h : auth.to_encrypted_records rng = some (cts, hs, rzs)) :
    cts.length = min S.numOutputRecords auth.output_records.length
    ∧ hs.length = cts.length ∧ rzs.length = cts.length
    ∧ EncryptTrace (auth.output_records.take S.numOutputRecords) rng cts hs rzs := by
  obtain ⟨l1, l2, l3, htr⟩ := encryptRecords_inv _ rng cts hs rzs h
  rw [List.length_take] at l1 l2 l3
  exact ⟨l1, by omega, by omega, htr⟩

/-- Witness for C6: concrete aligned run on `testScheme` with two outputs. -/
theorem to_encrypted_records_aligned_witness :
    ([[7], [9]] : List (List Nat)).length
        = min testScheme.numOutputRecords ([7, 8] : List Nat).length
      ∧ ([1, 1] : List Nat).length = 2 ∧ ([0, 1] : List Nat).length = 2
      ∧ EncryptTrace (S := testScheme) ([7, 8].take testScheme.numOutputRecords) 0
          [[7], [9]] [1, 1] [0, 1] := by
  have h := to_encrypted_records_aligned (S := testScheme)
    ⟨1, [5, 6], [7, 8], [9, 10], [none, none]⟩ 0 [[7], [9]] [1, 1] [0, 1] (by decide)
  exact ⟨h.1, h.2.1, h.2.2.1, h.2.2.2⟩

/-! ## Binary serialization (`ToBytes`/`FromBytes` impls) -/

/-- One noop-compute-key entry on the wire: a boolean discriminant byte,
then the key payload only when present. -/
def writeOptionComputeKey {S : DpcScheme} : Option S.CKey → List Nat
  | some noop_compute_key => 1 :: S.ckeyToBytes noop_compute_key
  | none => [0]

/-- `TransactionAuthorization::write_le`: kernel, input records, output
records, signatures (each vector element-by-element, no length prefix), then
the first `NUM_INPUT_RECORDS` noop-compute-key entries. -/
def TransactionAuthorization.write_le {S : DpcScheme}
    (auth : TransactionAuthorization S) : List Nat :=
  S.kernelToBytes auth.kernel
  ++ (auth.input_records.map S.recordToBytes).flatten
  ++ (auth.output_records.map S.recordToBytes).flatten
  ++ (auth.signatures.map S.sigToBytes).flatten
  ++ ((auth.noop_compute_keys.take S.numInputRecords).map writeOptionComputeKey).flatten

/-- Read `n` consecutive values with a component reader (the
`for _ in 0..n { push(FromBytes::read_le(..)?) }` loops). -/
def readVec {α : Type} (read1 : List Nat → Option (α × List Nat)) :
    Nat → List Nat → Option (List α × List Nat)
  | 0, bytes => some ([], bytes)
  | n + 1, bytes =>
    (read1 bytes).bind (fun p =>
      (readVec read1 n p.2).bind (fun q => some (p.1 :: q.1, q.2)))

/-- Modelled from the spec: the boolean discriminant byte of an optional
compute key — `0` is absent, `1` is present, anything else is malformed. -/
def readBool : List Nat → Option (Bool × List Nat)
  | 0 :: rest => some (false, rest)
  | 1 :: rest => some (true, rest)
  | _ => none

/-- Read one optional compute key: discriminant byte, then payload if true. -/
def readOptionComputeKey {S : DpcScheme} (bytes : List Nat) :
    Option (Option S.CKey × List Nat) :=
  (readBool bytes).bind (fun p =>
    match p.1 with
    | true => (S.ckeyFromBytes p.2).bind (fun q => some (some q.1, q.2))
    | false => some (none, p.2))

/-- `TransactionAuthorization::read_le`: mirrors the write order with fixed,
protocol-constant counts; returns the object and the unconsumed bytes. -/
def TransactionAuthorization.read_le {S : DpcScheme} (bytes : List Nat) :
    Option (TransactionAuthorization S × List Nat) :=
  (S.kernelFromBytes bytes).bind (fun pk =>
  (readVec S.recordFromBytes S.numInputRecords pk.2).bind (fun pin =>
  (readVec S.recordFromBytes S.numOutputRecords pin.2).bind (fun pout =>
  (readVec S.sigFromBytes S.numInputRecords pout.2).bind (fun psig =>
  (readVec readOptionComputeKey S.numInputRecords psig.2).bind (fun pnoop =>
  some (⟨pk.1, pin.1, pout.1, psig.1, pnoop.1⟩, pnoop.2))))))

theorem readVec_roundtrip {α : Type} (read1 : List Nat → Option (α × List Nat))
    (enc : α → List Nat)
    (hrt : ∀ x rest, read1 (enc x ++ rest) = some (x, rest)) :
    ∀ (l : List α) (n : Nat), l.length = n → ∀ (rest : List Nat),
    readVec read1 n ((l.map enc).flatten ++ rest) = some (l, rest) := by
  intro l
  induction l with
  | nil =>
      intro n hn rest
      subst hn
      simp [readVec]
  | cons a tl ih =>
      intro n hn rest
      subst hn
      simp only [List.map_cons, List.flatten_cons, List.length_cons, List.append_assoc, readVec]
      rw [hrt a _]
      simp only [Option.some_bind]
      rw [ih tl.length rfl rest]
      rfl

theorem readOptionComputeKey_roundtrip {S : DpcScheme}
    (hcrt : ∀ k rest, S.ckeyFromBytes (S.ckeyToBytes k ++ rest) = some (k, rest)) :
    ∀ (k : Option S.CKey) (rest : List Nat),
    readOptionComputeKey (S := S) (writeOptionComputeKey k ++ rest) = some (k, rest) := by
  intro k rest
  cases k with
  | none => rfl
  | some key =>
      simp [writeOptionComputeKey, readOptionComputeKey, readBool, hcrt key rest]

theorem read_le_write_le_aux {S : DpcScheme} (auth : TransactionAuthorization S)
    (hkrt : ∀ k rest, S.kernelFromBytes (S.kernelToBytes k ++ rest) = some (k, rest))
    (hrrt : ∀ r rest, S.recordFromBytes (S.recordToBytes r ++ rest) = some (r, rest))
    (hsrt : ∀ s rest, S.sigFromBytes (S.sigToBytes s ++ rest) = some (s, rest))
    (hcrt : ∀ k rest, S.ckeyFromBytes (S.ckeyToBytes k ++ rest) = some (k, rest))
    (hin : auth.input_records.length = S.numInputRecords)
    (hout : auth.output_records.length = S.numOutputRecords)
    (hsig : auth.signatures.length = S.numInputRecords)
    (hnoop : auth.noop_compute_keys.length = S.numInputRecords) :
    TransactionAuthorization.read_le (S := S) auth.write_le = some (auth, []) := by
  obtain ⟨k, ins, outs, sigs, noops⟩ := auth
  simp only at hin hout hsig hnoop
  have htake : noops.take S.numInputRecords = noops :=
    List.take_of_length_le (le_of_eq hnoop)
  unfold TransactionAuthorization.write_le TransactionAuthorization.read_le
  simp only [htake, List.append_assoc]
  rw [show ((noops.map writeOptionComputeKey).flatten : List Nat)
      = (noops.map writeOptionComputeKey).flatten ++ [] from (List.append_nil _).symm]
  rw [hkrt k _]
  simp only [Option.some_bind]
  rw [readVec_roundtrip S.recordFromBytes S.recordToBytes hrrt ins S.numInputRecords hin _]
  simp only [Option.some_bind]
  rw [readVec_roundtrip S.recordFromBytes S.recordToBytes hrrt outs S.numOutputRecords hout _]
  simp only [Option.some_bind]
  rw [readVec_roundtrip S.sigFromBytes S.sigToBytes hsrt sigs S.numInputRecords hsig _]
  simp only [Option.some_bind]
  rw [readVec_roundtrip readOptionComputeKey writeOptionComputeKey
    (readOptionComputeKey_roundtrip hcrt) noops S.numInputRecords hnoop []]
  rfl

/-- C4: for any authorization whose record, signature and noop-key sequences
have the protocol-constant lengths and whose component codecs round-trip,
deserializing the binary serialization yields back a structurally equal
object, consuming the stream exactly. -/
theorem write_read_roundtrip {S : DpcScheme} (auth : TransactionAuthorization S)
    (hkrt : ∀ k rest, S.kernelFromBytes (S.kernelToBytes k ++ rest) = some (k, rest))
    (hrrt : ∀ r rest, S.recordFromBytes (S.recordToBytes r ++ rest) = some (r, rest))
    (hsrt : ∀ s rest, S.sigFromBytes (S.sigToBytes s ++ rest) = some (s, rest))
    (hcrt : ∀ k rest, S.ckeyFromBytes (S.ckeyToBytes k ++ rest) = some (k, rest))
    (hin : auth.input_records.length = S.numInputRecords)
    (hout : auth.output_records.length = S.numOutputRecords)
    (hsig : auth.signatures.length = S.numInputRecords)
    (hnoop : auth.noop_compute_keys.length = S.numInputRecords) :
    TransactionAuthorization.read_le (S := S) auth.write_le = some (auth, []) :=
  read_le_write_le_aux auth hkrt hrrt hsrt hcrt hin hout hsig hnoop

/-- Witness for C4: a concrete round trip on `testScheme`, including one
present and one absent noop compute key. -/
theorem write_read_roundtrip_witness :
    TransactionAuthorization.read_le (S := testScheme)
        (TransactionAuthorization.write_le (S := testScheme)
          ⟨1, [5, 6], [7, 8], [9, 10], [some 4, none]⟩)
      = some (⟨1, [5, 6], [7, 8], [9, 10], [some 4, none]⟩, []) :=
  write_read_roundtrip ⟨1, [5, 6], [7, 8], [9, 10], [some 4, none]⟩
    (fun k rest => rfl) (fun r rest => rfl) (fun s rest => rfl) (fun k rest => rfl)
    (by decide) (by decide) (by decide) (by decide)

/-- C10: serialization writes only the first `NUM_INPUT_RECORDS` noop-key
entries — any excess entries are silently omitted from the stream — while the
kernel and the record and signature vectors are emitted in their entirety, in
order, whatever their actual lengths. -/
theorem write_le_truncates_only_noop_keys {S : DpcScheme}
    (auth : TransactionAuthorization S) (keep extra : List (Option S.CKey))
    (hsplit : auth.noop_compute_keys = keep ++ extra)
    (hkeep : keep.length = S.numInputRecords) :
    auth.write_le = TransactionAuthorization.write_le
        { auth with noop_compute_keys := keep }
    ∧ auth.write_le
      = S.kernelToBytes auth.kernel
        ++ (auth.input_records.map S.recordToBytes).flatten
        ++ (auth.output_records.map S.recordToBytes).flatten
        ++ (auth.signatures.map S.sigToBytes).flatten
        ++ (keep.map writeOptionComputeKey).flatten := by
  have htake : auth.noop_compute_keys.take S.numInputRecords = keep := by
    rw [hsplit, ← hkeep, List.take_left]
  have htake2 : keep.take S.numInputRecords = keep :=
    List.take_of_length_le (le_of_eq hkeep)
  constructor
  · unfold TransactionAuthorization.write_le
    simp only [htake, htake2]
  · unfold TransactionAuthorization.write_le
    simp only [htake]

/-- Witness for C10: with three noop entries against a constant of 2, the
third entry is dropped from the serialization. -/
theorem write_le_truncates_witness :
    TransactionAuthorization.write_le (S := testScheme)
        ⟨1, [5, 6], [7, 8], [9, 10], [some 4, none, some 5]⟩
      = TransactionAuthorization.write_le (S := testScheme)
        ⟨1, [5, 6], [7, 8], [9, 10], [some 4, none]⟩ :=
  (write_le_truncates_only_noop_keys ⟨1, [5, 6], [7, 8], [9, 10], [some 4, none, some 5]⟩
    [some 4, none] [some 5] rfl rfl).1

/-! ## Text form (`hex::encode` / `hex::decode` and the `Display`/`FromStr`
impls for `TransactionAuthorization`) -/

/-- Lowercase hexadecimal digit for a value below 16 (`hex::encode` output). -/
def natToHexDigit (n : Nat) : Char :=
  if n < 10 then Char.ofNat (48 + n) else Char.ofNat (87 + n)

/-- Value of one hexadecimal digit, accepting both cases (`hex::decode`). -/
def hexDigitToNat (c : Char) : Option Nat :=
  if 48 ≤ c.toNat ∧ c.toNat ≤ 57 then some (c.toNat - 48)
  else if 97 ≤ c.toNat ∧ c.toNat ≤ 102 then some (c.toNat - 87)
  else if 65 ≤ c.toNat ∧ c.toNat ≤ 70 then some (c.toNat - 55)
  else none

/-- `hex::encode`: two lowercase digits per byte, high nibble first. -/
def hexEncode (bytes : List Nat) : List Char :=
  (bytes.map (fun b => [natToHexDigit (b / 16), natToHexDigit (b % 16)])).flatten

/-- `hex::decode`: fails on odd length or any non-hex character. -/
def hexDecode : List Char → Option (List Nat)
  | [] => some []
  | [_] => none
  | c1 :: c2 :: rest =>
    (hexDigitToNat c1).bind (fun d1 =>
      (hexDigitToNat c2).bind (fun d2 =>
        (hexDecode rest).bind (fun bs => some ((16 * d1 + d2) :: bs))))

/-- The `fmt::Display` impl for `TransactionAuthorization`:
`hex::encode(to_bytes_le![self])`. -/
def TransactionAuthorization.fmtHex {S : DpcScheme}
    (auth : TransactionAuthorization S) : List Char :=
  hexEncode auth.write_le

/-- The `FromStr` impl for `TransactionAuthorization`: `hex::decode`, then
`read_le` on the bytes (unconsumed trailing bytes are ignored). -/
def TransactionAuthorization.from_str {S : DpcScheme} (s : List Char) :
    Option (TransactionAuthorization S) :=
  match hexDecode s with
  | none => none
  | some bytes =>
    match TransactionAuthorization.read_le (S := S) bytes with
    | none => none
    | some (auth, _) => some auth

theorem hexDigit_lower_roundtrip : ∀ d, d < 16 → hexDigitToNat (natToHexDigit d) = some d := by
  decide

theorem hexDigit_upper_roundtrip :
    ∀ d, d < 16 → hexDigitToNat (natToHexDigit d).toUpper = some d := by
  decide

/-- Whether a character is a lowercase hexadecimal digit (`0`-`9`, `a`-`f`). -/
def isLowerHexDigit (c : Char) : Bool :=
  decide (Char.ofNat 48 ≤ c ∧ c ≤ Char.ofNat 57)
    || decide (Char.ofNat 97 ≤ c ∧ c ≤ Char.ofNat 102)

theorem natToHexDigit_isLowerHex : ∀ d, d < 16 →
    isLowerHexDigit (natToHexDigit d) = true := by
  decide

theorem hexDecode_hexEncode (bytes : List Nat) (h : ∀ b ∈ bytes, b < 256) :
    hexDecode (hexEncode bytes) = some bytes := by
  induction bytes with
  | nil => rfl
  | cons b tl ih =>
      have hb : b < 256 := h b (by simp)
      rw [show hexEncode (b :: tl)
          = natToHexDigit (b / 16) :: natToHexDigit (b % 16) :: hexEncode tl from rfl]
      simp only [hexDecode]
      rw [hexDigit_lower_roundtrip (b / 16) (by omega),
        hexDigit_lower_roundtrip (b % 16) (by omega)]
      simp only [Option.some_bind]
      rw [ih (fun x hx => h x (by simp [hx]))]
      simp only [Option.some_bind, Option.some.injEq]
      congr 1
      omega

theorem hexDecode_hexEncode_upper (bytes : List Nat) (h : ∀ b ∈ bytes, b < 256) :
    hexDecode ((hexEncode bytes).map Char.toUpper) = some bytes := by
  induction bytes with
  | nil => rfl
  | cons b tl ih =>
      have hb : b < 256 := h b (by simp)
      rw [show (hexEncode (b :: tl)).map Char.toUpper
          = (natToHexDigit (b / 16)).toUpper :: (natToHexDigit (b % 16)).toUpper
            :: (hexEncode tl).map Char.toUpper from rfl]
      simp only [hexDecode]
      rw [hexDigit_upper_roundtrip (b / 16) (by omega),
        hexDigit_upper_roundtrip (b % 16) (by omega)]
      simp only [Option.some_bind]
      rw [ih (fun x hx => h x (by simp [hx]))]
      simp only [Option.some_bind, Option.some.injEq]
      congr 1
      omega

theorem hexEncode_mem_lower (bytes : List Nat) (h : ∀ b ∈ bytes, b < 256) :
    ∀ ch ∈ hexEncode bytes, isLowerHexDigit ch = true := by
  intro ch hch
  simp only [hexEncode, List.mem_flatten, List.mem_map] at hch
  obtain ⟨l, ⟨b, hb, rfl⟩, hchl⟩ := hch
  have hb256 : b < 256 := h b hb
  simp only [List.mem_cons, List.not_mem_nil, or_false] at hchl
  rcases hchl with rfl | rfl
  · exact natToHexDigit_isLowerHex (b / 16) (by omega)
  · exact natToHexDigit_isLowerHex (b % 16) (by omega)

/-- C9: the text form is the lowercase hexadecimal encoding of the binary
serialization; parsing accepts hex digits case-insensitively and inverts
display for every authorization with protocol-constant sequence lengths; and
invalid hexadecimal, or a byte string that the fixed-layout binary reader
rejects (e.g. truncated), parses to a failure, never a partial object. -/
theorem text_form_spec {S : DpcScheme} (auth : TransactionAuthorization S)
    (hkrt : ∀ k rest, S.kernelFromBytes (S.kernelToBytes k ++ rest) = some (k, rest))
    (hrrt : ∀ r rest, S.recordFromBytes (S.recordToBytes r ++ rest) = some (r, rest))
    (hsrt : ∀ s rest, S.sigFromBytes (S.sigToBytes s ++ rest) = some (s, rest))
    (hcrt : ∀ k rest, S.ckeyFromBytes (S.ckeyToBytes k ++ rest) = some (k, rest))
    (hin : auth.input_records.length = S.numInputRecords)
    (hout : auth.output_records.length = S.numOutputRecords)
    (hsig : auth.signatures.length = S.numInputRecords)
    (hnoop : auth.noop_compute_keys.length = S.numInputRecords)
    (hbytes : ∀ b ∈ auth.write_le, b < 256) :
    TransactionAuthorization.fmtHex auth = hexEncode auth.write_le
    ∧ (∀ ch ∈ TransactionAuthorization.fmtHex auth, isLowerHexDigit ch = true)
    ∧ TransactionAuthorization.from_str (S := S)
        (TransactionAuthorization.fmtHex auth) = some auth
    ∧ TransactionAuthorization.from_str (S := S)
        ((TransactionAuthorization.fmtHex auth).map Char.toUpper) = some auth
    ∧ (∀ s : List Char, hexDecode s = none →
        TransactionAuthorization.from_str (S := S) s = none)
    ∧ (∀ (s : List Char) (bytes : List Nat), hexDecode s = some bytes →
        TransactionAuthorization.read_le (S := S) bytes = none →
        TransactionAuthorization.from_str (S := S) s = none) := by
  have hread := read_le_write_le_aux auth hkrt hrrt hsrt hcrt hin hout hsig hnoop
  refine ⟨rfl, hexEncode_mem_lower _ hbytes, ?_, ?_, ?_, ?_⟩
  · unfold TransactionAuthorization.from_str TransactionAuthorization.fmtHex
    rw [hexDecode_hexEncode _ hbytes]
    simp [hread]
  · unfold TransactionAuthorization.from_str TransactionAuthorization.fmtHex
    rw [hexDecode_hexEncode_upper _ hbytes]
    simp [hread]
  · intro s hs
    unfold TransactionAuthorization.from_str
    rw [hs]
  · intro s bytes hs hb
    unfold TransactionAuthorization.from_str
    rw [hs]
    simp [hb]

/-- Witness for C9: parsing the displayed text of a concrete authorization on
`testScheme` returns the same authorization. -/
theorem text_form_spec_witness :
    TransactionAuthorization.from_str (S := testScheme)
        (TransactionAuthorization.fmtHex (S := testScheme)
          ⟨1, [5, 6], [7, 8], [9, 10], [some 4, none]⟩)
      = some ⟨1, [5, 6], [7, 8], [9, 10], [some 4, none]⟩ :=
  (text_form_spec ⟨1, [5, 6], [7, 8], [9, 10], [some 4, none]⟩
    (fun k rest => rfl) (fun r rest => rfl) (fun s rest => rfl) (fun k rest => rfl)
    (by decide) (by decide) (by decide) (by decide) (by decide)).2.2.1

end SnarkVM
